import Mathlib

/-!
Verification of the roaring bitmap container store (`src/lib.rs`).

The store logic (`RoaringBitmap`: `new`, `insert`, `remove`, `contains`,
`cardinality`, `is_empty`, the `Index` and `FromIterator` adapters, and
`calc_loc`) is embedded directly from `src/lib.rs`.  The `container` module is
declared in `src/lib.rs` (`mod container;`) but its file is not part of the
sources, so the `Container` type is modelled from the specification (§3, §4.1).

The Rust code predates Rust 1.0: `slice::binary_search` there takes a
comparator closure and returns `Found(i)` / `NotFound(i)`; its loop is the
classic `base`/`lim` binary search, embedded below as `binarySearchLoop`.
-/

namespace Roaring

/-- The fixed sparse/dense crossover threshold `T` of the spec (canonically 4096). -/
def T : Nat := 4096

/-- Modelled from the spec: the representation variants of the missing
`container` module — a sparse strictly increasing sequence of 16-bit indices,
or a dense bit vector over `{0 .. 65535}` (modelled as its set of set bits). -/
inductive CRepr where
  | sparse (indices : List Nat)
  | dense (bits : Finset Nat)
  deriving DecidableEq

/-- Modelled from the spec: a container has an immutable `key`, a maintained
`card` counter (the spec's cardinality, kept O(1)), and a representation. -/
structure Container where
  key : Nat
  card : Nat
  rep : CRepr
  deriving DecidableEq

/-- Modelled from the spec: a container is created empty (cardinality 0, sparse). -/
def Container.new (key : Nat) : Container := ⟨key, 0, .sparse []⟩

/-- Modelled from the spec: order-preserving insert into the sparse sorted
index sequence (shift on insert to preserve order). -/
def sparseInsert (i : Nat) : List Nat → List Nat
  | [] => [i]
  | x :: xs => if i < x then i :: x :: xs else if i = x then x :: xs else x :: sparseInsert i xs

/-- Modelled from the spec: membership query, pure, in either representation. -/
def Container.contains (c : Container) (i : Nat) : Bool :=
  match c.rep with
  | .sparse l => l.contains i
  | .dense s => decide (i ∈ s)

/-- Modelled from the spec: O(1) read of the maintained counter. -/
def Container.cardinality (c : Container) : Nat := c.card

/-- Modelled from the spec: add `i` if absent, returning whether the set
changed; a sparse→dense conversion (bulk rebuild of the bit vector from the
sparse sequence) happens the instant post-insert cardinality exceeds `T`. -/
def Container.insert (c : Container) (i : Nat) : Container × Bool :=
  match c.rep with
  | .sparse l =>
    if l.contains i then (c, false)
    else
      let l2 := sparseInsert i l
      if T < l2.length then (⟨c.key, l2.length, .dense l2.toFinset⟩, true)
      else (⟨c.key, l2.length, .sparse l2⟩, true)
  | .dense s =>
    if i ∈ s then (c, false)
    else (⟨c.key, c.card + 1, .dense (Insert.insert i s)⟩, true)

/-- Modelled from the spec: remove `i` if present, returning whether the set
changed; the symmetric dense→sparse conversion happens the instant post-remove
cardinality drops to or below `T` (single-threshold policy). -/
def Container.remove (c : Container) (i : Nat) : Container × Bool :=
  match c.rep with
  | .sparse l =>
    if l.contains i then (⟨c.key, c.card - 1, .sparse (l.erase i)⟩, true)
    else (c, false)
  | .dense s =>
    if i ∈ s then
      if c.card - 1 ≤ T then (⟨c.key, c.card - 1, .sparse ((s.erase i).sort (· ≤ ·))⟩, true)
      else (⟨c.key, c.card - 1, .dense (s.erase i)⟩, true)
    else (c, false)

/-- Whether the container currently uses the dense representation. -/
def Container.isDense (c : Container) : Bool :=
  match c.rep with
  | .sparse _ => false
  | .dense _ => true

/-- Embeds `calc_loc` from `src/lib.rs`:
`((index >> u16::BITS) as u16, index as u16)` with `u16::BITS = 16`; the
`as u16` casts truncate to 16 bits, hence the `% 65536`. -/
def calc_loc (index : Nat) : Nat × Nat := ((index >>> 16) % 65536, index % 65536)

/-- The pre-1.0 Rust `BinarySearchResult`: `Found(i)` with the matching index,
or `NotFound(i)` with the insertion point. -/
inductive BinarySearchResult where
  | found (i : Nat)
  | notFound (i : Nat)
  deriving DecidableEq

/-- The pre-1.0 Rust `slice::binary_search` loop (libcore `slice.rs`):
maintains a window `[base, base+lim)`; on `Less` it moves `base` past the
probe and continues in the right half, on `Greater` it continues in the left
half, on `Equal` it returns `Found`. The `while lim != 0` loop terminates
because `lim` strictly decreases; it is embedded structurally with a fuel
argument that bounds the iteration count (any `fuel ≥ lim` gives the loop's
behaviour, see `bsl_found` / `bsl_notFound`; the entry point passes the slice
length). -/
def binarySearchLoop (f : Container → Ordering) (xs : List Container) :
    Nat → Nat → Nat → BinarySearchResult
  | base, _, 0 => .notFound base
  | base, lim, fuel + 1 =>
    if lim = 0 then .notFound base
    else
      match f (xs.getD (base + lim / 2) (Container.new 0)) with
      | .eq => .found (base + lim / 2)
      | .lt => binarySearchLoop f xs (base + lim / 2 + 1) ((lim - 1) / 2) fuel
      | .gt => binarySearchLoop f xs base (lim / 2) fuel

/-- The binary search call as written in `src/lib.rs`:
`containers.as_slice().binary_search(|container| key.cmp(&container.key()))` —
note the comparator compares the probe key to the element, i.e. it is the
reverse of the direction the pre-1.0 libcore search expects for an
ascending slice. -/
def bsearchKey (key : Nat) (cs : List Container) : BinarySearchResult :=
  binarySearchLoop (fun c => compare key c.key) cs 0 cs.length cs.length

/-- The `RoaringBitmap` of `src/lib.rs`: an ordered sequence of containers. -/
structure RoaringBitmap where
  containers : List Container
  deriving DecidableEq

/-- Embeds `RoaringBitmap::new`: the empty container sequence. -/
def RoaringBitmap.new : RoaringBitmap := ⟨[]⟩

/-- Embeds `RoaringBitmap::insert`: split the value, binary-search the key;
on `Found(loc)` delegate to the container at `loc`, on `NotFound(loc)` insert
`Container::new(key)` at `loc` and delegate to it; return the container's
result. State is passed explicitly: the result pairs the new bitmap with the
returned bool. -/
def RoaringBitmap.insert (rb : RoaringBitmap) (value : Nat) : RoaringBitmap × Bool :=
  let key := (calc_loc value).1
  let index := (calc_loc value).2
  match bsearchKey key rb.containers with
  | .found loc =>
    let r := (rb.containers.getD loc (Container.new 0)).insert index
    (⟨rb.containers.set loc r.1⟩, r.2)
  | .notFound loc =>
    let cs := rb.containers.insertIdx loc (Container.new key)
    let r := (cs.getD loc (Container.new 0)).insert index
    (⟨cs.set loc r.1⟩, r.2)

/-- Embeds `RoaringBitmap::remove`: on `Found(loc)` delegate to the container
at `loc`; otherwise return `false` without touching the sequence. -/
def RoaringBitmap.remove (rb : RoaringBitmap) (value : Nat) : RoaringBitmap × Bool :=
  let key := (calc_loc value).1
  let index := (calc_loc value).2
  match bsearchKey key rb.containers with
  | .found loc =>
    let r := (rb.containers.getD loc (Container.new 0)).remove index
    (⟨rb.containers.set loc r.1⟩, r.2)
  | .notFound _ => (rb, false)

/-- Embeds `RoaringBitmap::contains`: on `Found(loc)` delegate to the
container at `loc`, on `NotFound` return `false`. Takes `&self` in Rust, so
it is a pure function of the bitmap here. -/
def RoaringBitmap.contains (rb : RoaringBitmap) (value : Nat) : Bool :=
  let key := (calc_loc value).1
  let index := (calc_loc value).2
  match bsearchKey key rb.containers with
  | .found loc => (rb.containers.getD loc (Container.new 0)).contains index
  | .notFound _ => false

/-- Embeds `RoaringBitmap::cardinality`: map every container to its
cardinality cast `as u32` and fold with `u32` addition from 0; `u32`
arithmetic wraps, modelled as `Nat` with `% 2^32` on the cast and on every
addition. -/
def RoaringBitmap.cardinality (rb : RoaringBitmap) : Nat :=
  (rb.containers.map (fun c => c.cardinality % 4294967296)).foldl
    (fun sum c => (sum + c) % 4294967296) 0

/-- Embeds `RoaringBitmap::is_empty`: `cardinality() == 0`. -/
def RoaringBitmap.is_empty (rb : RoaringBitmap) : Bool := rb.cardinality == 0

/-- Embeds the `Index<u32, bool>` impl: `if self.contains(*index) { &TRUE }
else { &FALSE }`; the dereferenced static bools are modelled as the bools. -/
def RoaringBitmap.index (rb : RoaringBitmap) (i : Nat) : Bool :=
  if rb.contains i then true else false

/-- Embeds the `FromIterator<u32>` impl: its body is `unimplemented!()`, a
panic on every input, so no bitmap is ever produced — modelled as `none`. -/
def from_iter (_ : List Nat) : Option RoaringBitmap := none

/-- A store-level operation, for quantifying over arbitrary finite
insert/remove interleavings. -/
inductive Op where
  | ins (v : Nat)
  | rem (v : Nat)

/-- Applies one store operation, keeping the resulting state. -/
def applyOp (rb : RoaringBitmap) (op : Op) : RoaringBitmap :=
  match op with
  | .ins v => (rb.insert v).1
  | .rem v => (rb.remove v).1

/-- Applies a finite sequence of store operations in order. -/
def applyOps (ops : List Op) (rb : RoaringBitmap) : RoaringBitmap := ops.foldl applyOp rb

/-- A container-level operation (16-bit local index), for quantifying over
arbitrary finite insert/remove interleavings on one container. -/
inductive COp where
  | ins (i : Nat)
  | rem (i : Nat)

/-- Applies one container operation, keeping the resulting container. -/
def applyCOp (c : Container) (op : COp) : Container :=
  match op with
  | .ins i => (c.insert i).1
  | .rem i => (c.remove i).1

/-- Applies a finite sequence of container operations in order. -/
def applyCOps (ops : List COp) (c : Container) : Container := ops.foldl applyCOp c

/-- The insertion point claimed by the spec ("first position whose existing
key is greater than the new key"), stated from the spec's words for
comparison with the code's behaviour. -/
def specInsertPos (ks : List Nat) (k : Nat) : Nat := ks.findIdx (fun x => k < x)

/-- The insertion point the code actually uses: the first position whose
existing key is less than the new key (the miss position of a binary search
over a strictly descending sequence). -/
def descInsertPos (ks : List Nat) (k : Nat) : Nat := ks.findIdx (fun x => x < k)

/-- A completely full container: its key, the maintained counter at 65536,
and the dense bit vector with every one of the 65536 bits set. -/
def fullContainer (k : Nat) : Container := ⟨k, 65536, .dense (Finset.range 65536)⟩

/-- The completely full bitmap: 65536 full containers, keys 65535 down to 0
(the descending order the store maintains) — the state reached after
inserting every 32-bit value, holding 2^32 values in total. -/
def fullStore : RoaringBitmap := ⟨((List.range 65536).reverse).map fullContainer⟩

/-- The container sequence is strictly decreasing by key; this is the order
the reversed comparator of `src/lib.rs` maintains. It implies no two
containers share a key. -/
def SortedKeys (cs : List Container) : Prop :=
  cs.Pairwise (fun a b => b.key < a.key)

/-- Modelled from the spec: well-formedness of a container — the sparse
sequence is strictly increasing with the counter equal to its length and
cardinality at most `T`; the dense bit set has the counter equal to its
cardinality, above `T`. -/
def CWf (c : Container) : Prop :=
  match c.rep with
  | .sparse l => l.Pairwise (· < ·) ∧ c.card = l.length ∧ c.card ≤ T
  | .dense s => c.card = s.card ∧ T < c.card

/-! ### Binary search correctness -/

theorem bsl_found {f : Container → Ordering} {xs : List Container} :
    ∀ fuel lim base ix, lim ≤ fuel → base + lim ≤ xs.length →
      binarySearchLoop f xs base lim fuel = .found ix →
      ix < xs.length ∧ f (xs.getD ix (Container.new 0)) = .eq := by
  intro fuel
  induction fuel with
  | zero =>
    intro lim base ix _ _ hrun
    simp only [binarySearchLoop] at hrun
    cases hrun
  | succ fuel IH =>
    intro lim base ix hfuel hle hrun
    rw [binarySearchLoop] at hrun
    split at hrun
    · cases hrun
    · rename_i hlim
      split at hrun
      · rename_i heq
        cases hrun
        exact ⟨by omega, heq⟩
      · exact IH ((lim - 1) / 2) (base + lim / 2 + 1) ix (by omega) (by omega) hrun
      · exact IH (lim / 2) base ix (by omega) (by omega) hrun

theorem sortedKeys_getD {xs : List Container} (hs : SortedKeys xs) {i j : Nat}
    (hij : i < j) (hj : j < xs.length) :
    (xs.getD j (Container.new 0)).key < (xs.getD i (Container.new 0)).key := by
  rw [List.getD_eq_getElem _ _ hj, List.getD_eq_getElem _ _ (by omega)]
  have h := List.pairwise_iff_get.1 hs ⟨i, by omega⟩ ⟨j, hj⟩ hij
  simpa using h

theorem bsl_notFound {k : Nat} {xs : List Container} (hs : SortedKeys xs) :
    ∀ fuel lim base b, lim ≤ fuel → base + lim ≤ xs.length →
      (∀ i, i < base → i < xs.length → k < (xs.getD i (Container.new 0)).key) →
      (∀ i, base + lim ≤ i → i < xs.length → (xs.getD i (Container.new 0)).key < k) →
      binarySearchLoop (fun c => compare k c.key) xs base lim fuel = .notFound b →
      b ≤ xs.length ∧
      (∀ i, i < b → i < xs.length → k < (xs.getD i (Container.new 0)).key) ∧
      (∀ i, b ≤ i → i < xs.length → (xs.getD i (Container.new 0)).key < k) := by
  intro fuel
  induction fuel with
  | zero =>
    intro lim base b hfuel hle hleft hright hrun
    have hlim : lim = 0 := by omega
    simp only [binarySearchLoop, BinarySearchResult.notFound.injEq] at hrun
    subst hrun
    exact ⟨by omega, hleft, fun i hbi hi => hright i (by omega) hi⟩
  | succ fuel IH =>
    intro lim base b hfuel hle hleft hright hrun
    rw [binarySearchLoop] at hrun
    split at hrun
    · rename_i hlim
      cases hrun
      exact ⟨by omega, hleft, fun i hbi hi => hright i (by omega) hi⟩
    · rename_i hlim
      split at hrun
      · cases hrun
      · rename_i hlt
        have hklt : k < (xs.getD (base + lim / 2) (Container.new 0)).key :=
          Nat.compare_eq_lt.1 hlt
        refine IH ((lim - 1) / 2) (base + lim / 2 + 1) b (by omega) (by omega) ?_ ?_ hrun
        · intro i hi hilen
          rcases Nat.lt_or_ge i (base + lim / 2) with hcase | hcase
          · exact hklt.trans (sortedKeys_getD hs hcase (by omega))
          · have : i = base + lim / 2 := by omega
            rw [this]; exact hklt
        · intro i hi hilen
          exact hright i (by omega) hilen
      · rename_i hgt
        have hkgt : (xs.getD (base + lim / 2) (Container.new 0)).key < k :=
          Nat.compare_eq_gt.1 hgt
        refine IH (lim / 2) base b (by omega) (by omega) hleft ?_ hrun
        intro i hi hilen
        rcases Nat.lt_or_ge i (base + lim / 2 + 1) with hcase | hcase
        · have : i = base + lim / 2 := by omega
          rw [this]; exact hkgt
        · exact (sortedKeys_getD hs (by omega) hilen).trans hkgt

/-- Characterisation of `bsearchKey` on a hit: the element at the returned
position has the probed key; needs no ordering assumption. -/
theorem bsearchKey_found {k : Nat} {cs : List Container} {ix : Nat}
    (h : bsearchKey k cs = .found ix) :
    ix < cs.length ∧ (cs.getD ix (Container.new 0)).key = k := by
  have := bsl_found cs.length cs.length 0 ix (by omega) (by omega) h
  exact ⟨this.1, (Nat.compare_eq_eq.1 this.2).symm⟩

/-- Characterisation of `bsearchKey` on a miss over a strictly descending
sequence: every position before the reported one holds a strictly greater
key and every position from it on holds a strictly smaller key. -/
theorem bsearchKey_notFound {k : Nat} {cs : List Container} {b : Nat}
    (hs : SortedKeys cs) (h : bsearchKey k cs = .notFound b) :
    b ≤ cs.length ∧
    (∀ i, i < b → i < cs.length → k < (cs.getD i (Container.new 0)).key) ∧
    (∀ i, b ≤ i → i < cs.length → (cs.getD i (Container.new 0)).key < k) := by
  exact bsl_notFound hs cs.length cs.length 0 b (by omega) (by omega)
    (fun i hi _ => absurd hi (by omega))
    (fun i hi hilen => absurd hilen (by omega)) h

/-- On a hit, the probed key is present; contrapositive: an absent key makes
the search miss. Needs no ordering assumption. -/
theorem bsearchKey_ne_found_of_absent {k : Nat} {cs : List Container}
    (habs : ∀ c ∈ cs, c.key ≠ k) {ix : Nat} :
    bsearchKey k cs ≠ .found ix := by
  intro h
  rcases bsearchKey_found h with ⟨hlt, hkey⟩
  have hmem : cs.getD ix (Container.new 0) ∈ cs := by
    rw [List.getD_eq_getElem _ _ hlt]
    exact List.getElem_mem hlt
  exact habs _ hmem hkey

/-- Over a strictly descending sequence, a present key is found at its
(unique) position. -/
theorem bsearchKey_found_of_mem {k : Nat} {cs : List Container} {j : Nat}
    (hs : SortedKeys cs) (hj : j < cs.length)
    (hkey : (cs.getD j (Container.new 0)).key = k) :
    bsearchKey k cs = .found j := by
  rcases hres : bsearchKey k cs with ix | b
  · rcases bsearchKey_found hres with ⟨hix, hixkey⟩
    rcases Nat.lt_trichotomy ix j with hc | hc | hc
    · have := sortedKeys_getD hs hc hj
      omega
    · rw [hc]
    · have := sortedKeys_getD hs hc hix
      omega
  · rcases bsearchKey_notFound hs hres with ⟨hb, hlt, hgt⟩
    rcases Nat.lt_or_ge j b with hc | hc
    · have := hlt j hc hj
      omega
    · have := hgt j hc hj
      omega

/-! ### Preservation of the descending-key order -/

theorem sortedKeys_set {cs : List Container} {loc : Nat} {c : Container}
    (hs : SortedKeys cs) (hloc : loc < cs.length)
    (hkey : c.key = (cs.getD loc (Container.new 0)).key) :
    SortedKeys (cs.set loc c) := by
  rw [SortedKeys, List.pairwise_iff_get] at hs ⊢
  intro i j hij
  have hi : (i : Nat) < cs.length := by
    have := i.isLt; simpa using this
  have hj : (j : Nat) < cs.length := by
    have := j.isLt; simpa using this
  have hij2 : (i : Nat) < (j : Nat) := hij
  have hbase := hs ⟨i, hi⟩ ⟨j, hj⟩ hij
  simp only [List.get_eq_getElem] at hbase ⊢
  rw [List.getD_eq_getElem _ _ hloc] at hkey
  rw [List.getElem_set, List.getElem_set]
  split <;> split
  · omega
  · rename_i h1 h2
    rw [hkey]
    simp only [h1]
    exact hbase
  · rename_i h1 h2
    rw [hkey]
    simp only [h2]
    exact hbase
  · exact hbase

theorem sortedKeys_insertIdx {cs : List Container} {b : Nat} {c : Container}
    (hs : SortedKeys cs) (hb : b ≤ cs.length)
    (hl : ∀ i, i < b → i < cs.length → c.key < (cs.getD i (Container.new 0)).key)
    (hr : ∀ i, b ≤ i → i < cs.length → (cs.getD i (Container.new 0)).key < c.key) :
    SortedKeys (cs.insertIdx b c) := by
  induction b generalizing cs with
  | zero =>
    rw [List.insertIdx_zero, SortedKeys, List.pairwise_cons]
    refine ⟨?_, hs⟩
    intro x hx
    rcases List.mem_iff_get.1 hx with ⟨i, rfl⟩
    have := hr i (by omega) i.isLt
    rw [List.getD_eq_getElem _ _ i.isLt] at this
    simpa [List.get_eq_getElem] using this
  | succ b IH =>
    match cs with
    | [] => simp at hb
    | x :: tl =>
      rw [List.insertIdx_succ_cons, SortedKeys, List.pairwise_cons]
      constructor
      · intro y hy
        rw [List.mem_insertIdx (by simpa using hb)] at hy
        rcases hy with rfl | hy
        · have := hl 0 (by omega) (by simp)
          simpa using this
        · exact (List.pairwise_cons.1 hs).1 y hy
      · refine IH (List.pairwise_cons.1 hs).2 (by simpa using hb) ?_ ?_
        · intro i hi hilen
          have := hl (i + 1) (by omega) (by simpa using hilen)
          simpa using this
        · intro i hi hilen
          have := hr (i + 1) (by omega) (by simpa using hilen)
          simpa using this

/-! ### Container facts (over the spec-modelled container) -/

theorem Container.key_insert (c : Container) (i : Nat) : (c.insert i).1.key = c.key := by
  rcases c with ⟨k, n, r⟩
  rcases r with l | s <;> simp only [Container.insert] <;> (repeat' split) <;> rfl

theorem Container.key_remove (c : Container) (i : Nat) : (c.remove i).1.key = c.key := by
  rcases c with ⟨k, n, r⟩
  rcases r with l | s <;> simp only [Container.remove] <;> (repeat' split) <;> rfl

theorem mem_sparseInsert (i j : Nat) : ∀ l : List Nat, j ∈ sparseInsert i l ↔ j = i ∨ j ∈ l := by
  intro l
  induction l with
  | nil => simp [sparseInsert]
  | cons x xs IH =>
    rw [sparseInsert]
    split
    · simp only [List.mem_cons]
    · split
      · rename_i hne heq
        subst heq
        simp only [List.mem_cons]
        tauto
      · simp only [List.mem_cons, IH]
        tauto

theorem Container.contains_insert_self (c : Container) (i : Nat) :
    ((c.insert i).1).contains i = true := by
  rcases c with ⟨k, n, r⟩
  rcases r with l | s
  · simp only [Container.insert]
    split
    · rename_i hc
      simpa [Container.contains] using hc
    · split
      · simp [Container.contains, List.mem_toFinset, mem_sparseInsert]
      · simp [Container.contains, List.elem_iff, List.contains, mem_sparseInsert]
  · simp only [Container.insert]
    split
    · rename_i hc
      simpa [Container.contains] using hc
    · simp [Container.contains]

theorem Container.insert_of_contains {c : Container} {i : Nat}
    (h : c.contains i = true) : c.insert i = (c, false) := by
  rcases c with ⟨k, n, r⟩
  rcases r with l | s
  · simp only [Container.contains] at h
    simp only [Container.insert, h, if_true]
  · simp only [Container.contains, decide_eq_true_eq] at h
    simp only [Container.insert, if_pos h]

/-! ### Small list helpers -/

theorem set_getD_self {α : Type} (d : α) : ∀ (l : List α) (i : Nat), i < l.length →
    l.set i (l.getD i d) = l := by
  intro l
  induction l with
  | nil => intro i h; simp at h
  | cons x tl IH =>
    intro i h
    cases i with
    | zero => simp
    | succ n =>
      have hrec := IH n (by simpa using h)
      simp only [List.getD_cons_succ, List.set_cons_succ, hrec]

theorem map_insertIdx (f : Container → Nat) :
    ∀ (n : Nat) (l : List Container) (c : Container), n ≤ l.length →
      (l.insertIdx n c).map f = (l.map f).insertIdx n (f c) := by
  intro n
  induction n with
  | zero => intro l c _; simp [List.insertIdx_zero]
  | succ n IH =>
    intro l c h
    match l with
    | [] => simp at h
    | x :: tl =>
      simp only [List.insertIdx_succ_cons, List.map_cons]
      rw [IH tl c (by simpa using h)]

theorem findIdx_eq_of_bounds {p : Nat → Bool} : ∀ (ks : List Nat) (b : Nat), b ≤ ks.length →
    (∀ i, i < b → i < ks.length → p (ks.getD i 0) = false) →
    (b < ks.length → p (ks.getD b 0) = true) →
    ks.findIdx p = b := by
  intro ks
  induction ks with
  | nil =>
    intro b hb _ _
    simp only [List.length_nil, Nat.le_zero] at hb
    subst hb
    simp
  | cons x tl IH =>
    intro b hb hf ht
    cases b with
    | zero =>
      have := ht (by simp)
      rw [List.findIdx_cons]
      simp only [List.getD_cons_zero] at this
      simp [this]
    | succ b =>
      have h0 := hf 0 (by omega) (by simp)
      rw [List.findIdx_cons]
      simp only [List.getD_cons_zero] at h0
      simp only [h0, cond_false]
      rw [IH b (by simpa using hb) ?_ ?_]
      · intro i hi hilen
        have := hf (i + 1) (by omega) (by simpa using hilen)
        simpa using this
      · intro hblen
        have := ht (by simpa using hblen)
        simpa using this

/-! ### Store-level facts -/

theorem insert_found_destruct {rb : RoaringBitmap} {v : Nat} {loc : Nat}
    (hres : bsearchKey (calc_loc v).1 rb.containers = .found loc) :
    (rb.insert v).1.containers
      = rb.containers.set loc
          (((rb.containers.getD loc (Container.new 0)).insert (calc_loc v).2).1)
    ∧ (rb.insert v).2
      = ((rb.containers.getD loc (Container.new 0)).insert (calc_loc v).2).2 := by
  refine ⟨?_, ?_⟩ <;> simp only [RoaringBitmap.insert, hres]

theorem insert_notFound_destruct {rb : RoaringBitmap} {v : Nat} {loc : Nat}
    (hres : bsearchKey (calc_loc v).1 rb.containers = .notFound loc)
    (hloc : loc ≤ rb.containers.length) :
    (rb.insert v).1.containers
      = (rb.containers.insertIdx loc (Container.new (calc_loc v).1)).set loc
          (((Container.new (calc_loc v).1).insert (calc_loc v).2).1)
    ∧ (rb.insert v).2 = ((Container.new (calc_loc v).1).insert (calc_loc v).2).2 := by
  refine ⟨?_, ?_⟩ <;>
    simp only [RoaringBitmap.insert, hres] <;>
    rw [List.getD_eq_getElem _ _ (by rw [List.length_insertIdx _ _ hloc]; omega),
      List.getElem_insertIdx_self _ _ _ hloc]

theorem remove_found_destruct {rb : RoaringBitmap} {v : Nat} {loc : Nat}
    (hres : bsearchKey (calc_loc v).1 rb.containers = .found loc) :
    (rb.remove v).1.containers
      = rb.containers.set loc
          (((rb.containers.getD loc (Container.new 0)).remove (calc_loc v).2).1)
    ∧ (rb.remove v).2
      = ((rb.containers.getD loc (Container.new 0)).remove (calc_loc v).2).2 := by
  refine ⟨?_, ?_⟩ <;> simp only [RoaringBitmap.remove, hres]

theorem remove_notFound_eq {rb : RoaringBitmap} {v : Nat} {loc : Nat}
    (hres : bsearchKey (calc_loc v).1 rb.containers = .notFound loc) :
    rb.remove v = (rb, false) := by
  simp only [RoaringBitmap.remove, hres]

theorem insert_sorted {rb : RoaringBitmap} {v : Nat} (hs : SortedKeys rb.containers) :
    SortedKeys (rb.insert v).1.containers := by
  rcases hres : bsearchKey (calc_loc v).1 rb.containers with loc | loc
  · rw [(insert_found_destruct hres).1]
    exact sortedKeys_set hs (bsearchKey_found hres).1 (Container.key_insert _ _)
  · rcases bsearchKey_notFound hs hres with ⟨hloc, hleft, hright⟩
    rw [(insert_notFound_destruct hres hloc).1]
    have hins : SortedKeys (rb.containers.insertIdx loc (Container.new (calc_loc v).1)) :=
      sortedKeys_insertIdx hs hloc (fun i hi hilen => hleft i hi hilen)
        (fun i hi hilen => hright i hi hilen)
    have hlen : loc < (rb.containers.insertIdx loc (Container.new (calc_loc v).1)).length := by
      rw [List.length_insertIdx _ _ hloc]; omega
    refine sortedKeys_set hins hlen ?_
    rw [Container.key_insert, List.getD_eq_getElem _ _ hlen,
      List.getElem_insertIdx_self _ _ _ hloc]

theorem remove_sorted {rb : RoaringBitmap} {v : Nat} (hs : SortedKeys rb.containers) :
    SortedKeys (rb.remove v).1.containers := by
  rcases hres : bsearchKey (calc_loc v).1 rb.containers with loc | loc
  · rw [(remove_found_destruct hres).1]
    exact sortedKeys_set hs (bsearchKey_found hres).1 (Container.key_remove _ _)
  · rw [remove_notFound_eq hres]
    exact hs

theorem sorted_applyOp {rb : RoaringBitmap} (op : Op) (hs : SortedKeys rb.containers) :
    SortedKeys (applyOp rb op).containers := by
  cases op with
  | ins v => exact insert_sorted hs
  | rem v => exact remove_sorted hs

theorem sorted_applyOps : ∀ (ops : List Op) (rb : RoaringBitmap),
    SortedKeys rb.containers → SortedKeys (applyOps ops rb).containers := by
  intro ops
  induction ops with
  | nil => intro rb hs; exact hs
  | cons op ops IH =>
    intro rb hs
    exact IH (applyOp rb op) (sorted_applyOp op hs)

theorem sorted_new : SortedKeys RoaringBitmap.new.containers := by
  simp [RoaringBitmap.new, SortedKeys]

theorem sorted_reachable (ops : List Op) :
    SortedKeys (applyOps ops RoaringBitmap.new).containers :=
  sorted_applyOps ops RoaringBitmap.new sorted_new

/-! ### Container well-formedness -/

theorem sparseInsert_pairwise {i : Nat} : ∀ {l : List Nat}, l.Pairwise (· < ·) →
    (sparseInsert i l).Pairwise (· < ·) := by
  intro l
  induction l with
  | nil => intro _; simp [sparseInsert]
  | cons x xs IH =>
    intro hp
    rcases List.pairwise_cons.1 hp with ⟨hx, hxs⟩
    rw [sparseInsert]
    split
    · rename_i hlt
      rw [List.pairwise_cons]
      refine ⟨?_, hp⟩
      intro y hy
      rcases List.mem_cons.1 hy with rfl | hy
      · exact hlt
      · exact hlt.trans (hx y hy)
    · split
      · exact hp
      · rename_i hnlt hne
        rw [List.pairwise_cons]
        refine ⟨?_, IH hxs⟩
        intro y hy
        rcases (mem_sparseInsert i y xs).1 hy with rfl | hy
        · omega
        · exact hx y hy

theorem sparseInsert_length_of_not_mem {i : Nat} : ∀ {l : List Nat}, i ∉ l →
    (sparseInsert i l).length = l.length + 1 := by
  intro l
  induction l with
  | nil => intro _; simp [sparseInsert]
  | cons x xs IH =>
    intro hm
    rw [sparseInsert]
    split
    · simp
    · split
      · rename_i hnlt heq
        exact absurd (heq ▸ List.mem_cons_self x xs) hm
      · simp only [List.length_cons]
        rw [IH (fun hc => hm (List.mem_cons_of_mem x hc))]

theorem containsNat_eq (l : List Nat) (i : Nat) : l.contains i = decide (i ∈ l) := by
  simp [List.contains]

theorem CWf_new (k : Nat) : CWf (Container.new k) := by
  simp [CWf, Container.new, T]

theorem CWf_mk_sparse {k n : Nat} {l : List Nat} (hp : l.Pairwise (· < ·))
    (hcard : n = l.length) (hle : n ≤ T) : CWf ⟨k, n, .sparse l⟩ :=
  ⟨hp, hcard, hle⟩

theorem CWf_mk_dense {k n : Nat} {s : Finset Nat} (hcard : n = s.card) (hgt : T < n) :
    CWf ⟨k, n, .dense s⟩ :=
  ⟨hcard, hgt⟩

theorem CWf_insert {c : Container} (i : Nat) (h : CWf c) : CWf (c.insert i).1 := by
  rcases c with ⟨k, n, r⟩
  rcases r with l | s
  · have h2 : l.Pairwise (· < ·) ∧ n = l.length ∧ n ≤ T := h
    obtain ⟨hp, hcard, hle⟩ := h2
    simp only [Container.insert]
    split
    · exact ⟨hp, hcard, hle⟩
    · rename_i hnc
      have hnm : i ∉ l := by
        rw [containsNat_eq] at hnc
        simpa using hnc
      have hp2 : (sparseInsert i l).Pairwise (· < ·) := sparseInsert_pairwise hp
      split
      · rename_i hgt
        refine CWf_mk_dense ?_ hgt
        rw [List.card_toFinset, List.dedup_eq_self.2 (hp2.imp fun hab => Nat.ne_of_lt hab)]
      · rename_i hngt
        exact CWf_mk_sparse hp2 rfl (Nat.le_of_not_lt hngt)
  · have h2 : n = s.card ∧ T < n := h
    obtain ⟨hcard, hgt⟩ := h2
    simp only [Container.insert]
    split
    · exact ⟨hcard, hgt⟩
    · rename_i hnm
      refine CWf_mk_dense ?_ (by omega)
      rw [Finset.card_insert_of_not_mem hnm, hcard]

theorem CWf_remove {c : Container} (i : Nat) (h : CWf c) : CWf (c.remove i).1 := by
  rcases c with ⟨k, n, r⟩
  rcases r with l | s
  · have h2 : l.Pairwise (· < ·) ∧ n = l.length ∧ n ≤ T := h
    obtain ⟨hp, hcard, hle⟩ := h2
    simp only [Container.remove]
    split
    · rename_i hc
      rw [containsNat_eq, decide_eq_true_eq] at hc
      refine CWf_mk_sparse (hp.sublist (List.erase_sublist i l)) ?_ (by omega)
      rw [List.length_erase_of_mem hc, hcard]
    · exact ⟨hp, hcard, hle⟩
  · have h2 : n = s.card ∧ T < n := h
    obtain ⟨hcard, hgt⟩ := h2
    simp only [Container.remove]
    split
    · rename_i hm
      split
      · rename_i hle
        refine CWf_mk_sparse (Finset.sort_sorted_lt _) ?_ hle
        rw [Finset.length_sort, Finset.card_erase_of_mem hm, hcard]
      · rename_i hnle
        refine CWf_mk_dense ?_ (by omega)
        rw [Finset.card_erase_of_mem hm, hcard]
    · exact ⟨hcard, hgt⟩

theorem CWf_applyCOp {c : Container} (op : COp) (h : CWf c) : CWf (applyCOp c op) := by
  cases op with
  | ins i => exact CWf_insert i h
  | rem i => exact CWf_remove i h

theorem CWf_applyCOps : ∀ (ops : List COp) (c : Container), CWf c → CWf (applyCOps ops c) := by
  intro ops
  induction ops with
  | nil => intro c h; exact h
  | cons op ops IH => intro c h; exact IH (applyCOp c op) (CWf_applyCOp op h)

theorem isDense_eq_card {c : Container} (h : CWf c) :
    c.isDense = decide (T < c.card) := by
  rcases c with ⟨k, n, r⟩
  rcases r with l | s
  · simp only [CWf] at h
    simp only [Container.isDense]
    have : ¬ (T < n) := by omega
    simp [this]
  · simp only [CWf] at h
    simp only [Container.isDense]
    simp [h.2]

theorem Container.card_insert_of_not_contains {c : Container} {i : Nat}
    (h : c.contains i = false) (hw : CWf c) : (c.insert i).1.card = c.card + 1 := by
  rcases c with ⟨k, n, r⟩
  rcases r with l | s
  · simp only [Container.contains] at h
    have hnm : i ∉ l := by
      rw [containsNat_eq] at h
      simpa using h
    have hw2 : l.Pairwise (· < ·) ∧ n = l.length ∧ n ≤ T := hw
    obtain ⟨hp, hcard, hle⟩ := hw2
    simp only [Container.insert, h, Bool.false_eq_true, if_false]
    split <;>
      · show (sparseInsert i l).length = n + 1
        rw [sparseInsert_length_of_not_mem hnm, hcard]
  · simp only [Container.contains, decide_eq_false_iff_not] at h
    simp only [Container.insert, h, if_false]

theorem Container.contains_insert_iff (c : Container) (i j : Nat) :
    ((c.insert i).1.contains j = true) ↔ (j = i ∨ c.contains j = true) := by
  rcases c with ⟨k, n, r⟩
  rcases r with l | s
  · simp only [Container.insert]
    split
    · rename_i hc
      rw [containsNat_eq, decide_eq_true_eq] at hc
      simp only [Container.contains, containsNat_eq, decide_eq_true_eq]
      constructor
      · intro hm; exact Or.inr hm
      · intro hm
        rcases hm with rfl | hm
        · exact hc
        · exact hm
    · split
      · simp only [Container.contains, containsNat_eq, decide_eq_true_eq,
          List.mem_toFinset, mem_sparseInsert]
      · simp only [Container.contains, containsNat_eq, decide_eq_true_eq,
          mem_sparseInsert]
  · simp only [Container.insert]
    split
    · rename_i hm
      simp only [Container.contains, decide_eq_true_eq]
      constructor
      · intro hj; exact Or.inr hj
      · intro hj
        rcases hj with rfl | hj
        · exact hm
        · exact hj
    · simp only [Container.contains, decide_eq_true_eq, Finset.mem_insert]

/-! ### Second-insert idempotence machinery -/

theorem RoaringBitmap.eq_of_containers_eq {a b : RoaringBitmap}
    (h : a.containers = b.containers) : a = b := by
  cases a
  cases b
  cases h
  rfl

theorem insert_post {rb : RoaringBitmap} {v : Nat} (hs : SortedKeys rb.containers) :
    ∃ loc, loc < (rb.insert v).1.containers.length ∧
      (((rb.insert v).1.containers.getD loc (Container.new 0)).key = (calc_loc v).1) ∧
      (((rb.insert v).1.containers.getD loc (Container.new 0)).contains (calc_loc v).2
        = true) := by
  rcases hres : bsearchKey (calc_loc v).1 rb.containers with loc | loc
  · rcases bsearchKey_found hres with ⟨hloc, hkey⟩
    rcases insert_found_destruct hres with ⟨hcs, _⟩
    have hlen : loc < ((rb.insert v).1.containers).length := by
      rw [hcs]; simpa using hloc
    refine ⟨loc, hlen, ?_, ?_⟩
    · rw [hcs] at hlen ⊢
      rw [List.getD_eq_getElem _ _ hlen, List.getElem_set_self]
      rw [Container.key_insert]
      exact hkey
    · rw [hcs] at hlen ⊢
      rw [List.getD_eq_getElem _ _ hlen, List.getElem_set_self]
      exact Container.contains_insert_self _ _
  · have hloc : loc ≤ rb.containers.length := (bsearchKey_notFound hs hres).1
    rcases insert_notFound_destruct hres hloc with ⟨hcs, _⟩
    have hlen : loc < ((rb.insert v).1.containers).length := by
      rw [hcs]
      simp only [List.length_set]
      rw [List.length_insertIdx _ _ hloc]
      omega
    refine ⟨loc, hlen, ?_, ?_⟩
    · rw [hcs] at hlen ⊢
      rw [List.getD_eq_getElem _ _ hlen, List.getElem_set_self]
      rw [Container.key_insert]
      rfl
    · rw [hcs] at hlen ⊢
      rw [List.getD_eq_getElem _ _ hlen, List.getElem_set_self]
      exact Container.contains_insert_self _ _

theorem insert_insert_eq {rb : RoaringBitmap} {v : Nat} (hs : SortedKeys rb.containers) :
    (rb.insert v).1.insert v = ((rb.insert v).1, false) := by
  obtain ⟨loc, hlen, hkey, hcont⟩ := insert_post hs (v := v)
  have hs2 : SortedKeys (rb.insert v).1.containers := insert_sorted hs
  have hfound : bsearchKey (calc_loc v).1 (rb.insert v).1.containers = .found loc :=
    bsearchKey_found_of_mem hs2 hlen hkey
  rcases insert_found_destruct hfound with ⟨hcs, hbool⟩
  have hnoop := Container.insert_of_contains hcont
  have h1 : ((rb.insert v).1.insert v).1.containers = (rb.insert v).1.containers := by
    rw [hcs, hnoop]
    exact set_getD_self (Container.new 0) _ _ hlen
  have h2 : ((rb.insert v).1.insert v).2 = false := by
    rw [hbool, hnoop]
  calc (rb.insert v).1.insert v
      = (((rb.insert v).1.insert v).1, ((rb.insert v).1.insert v).2) := rfl
    _ = ((rb.insert v).1, false) := by
        rw [h2, RoaringBitmap.eq_of_containers_eq h1]

/-! ### Cardinality as a wrapping sum -/

theorem cardFold_eq_sum_mod : ∀ (l : List Container) (s : Nat), s < 4294967296 →
    (l.map (fun c => c.cardinality % 4294967296)).foldl
        (fun sum c => (sum + c) % 4294967296) s
      = (s + (l.map (fun c => c.cardinality)).sum) % 4294967296 := by
  intro l
  induction l with
  | nil =>
    intro s hs
    simp [Nat.mod_eq_of_lt hs]
  | cons c cs IH =>
    intro s hs
    simp only [List.map_cons, List.foldl_cons, List.sum_cons]
    rw [IH _ (Nat.mod_lt _ (by norm_num))]
    omega

theorem map_fullContainer_card : ∀ l : List Nat,
    (l.map fullContainer).map (fun c => c.cardinality) = List.replicate l.length 65536 := by
  intro l
  induction l with
  | nil => rfl
  | cons x xs IH =>
    simp only [List.map_cons, List.length_cons, List.replicate_succ, IH]
    exact rfl

theorem sum_replicate_card : ∀ n : Nat, (List.replicate n 65536).sum = n * 65536 := by
  intro n
  induction n with
  | zero => simp
  | succ n IH =>
    rw [List.replicate_succ, List.sum_cons, IH]
    ring

/-! ### The threshold-crossing scenario -/

theorem range_fold_container : ∀ n : Nat,
    CWf ((List.range n).foldl (fun c i => (c.insert i).1) (Container.new 0)) ∧
    ((List.range n).foldl (fun c i => (c.insert i).1) (Container.new 0)).card = n ∧
    (∀ j, ((List.range n).foldl (fun c i => (c.insert i).1) (Container.new 0)).contains j
        = true ↔ j < n) := by
  intro n
  induction n with
  | zero =>
    refine ⟨CWf_new 0, rfl, ?_⟩
    intro j
    simp [Container.new, Container.contains]
  | succ n IH =>
    obtain ⟨hwf, hcard, hcont⟩ := IH
    rw [List.range_succ]
    simp only [List.foldl_append, List.foldl_cons, List.foldl_nil]
    have hnc : ((List.range n).foldl (fun c i => (c.insert i).1) (Container.new 0)).contains n
        = false := by
      cases h : ((List.range n).foldl (fun c i => (c.insert i).1) (Container.new 0)).contains n
      · rfl
      · exact absurd ((hcont n).1 h) (by omega)
    refine ⟨CWf_insert n hwf, ?_, ?_⟩
    · rw [Container.card_insert_of_not_contains hnc hwf, hcard]
    · intro j
      rw [Container.contains_insert_iff, hcont j]
      constructor
      · intro h
        rcases h with rfl | h <;> omega
      · intro h
        rcases eq_or_ne j n with rfl | hne
        · exact Or.inl rfl
        · exact Or.inr (by omega)

theorem Container.key_new (k : Nat) : (Container.new k).key = k := rfl

theorem getD_map_key {cs : List Container} {i : Nat} (h : i < cs.length) :
    (cs.map (fun c => c.key)).getD i 0 = (cs.getD i (Container.new 0)).key := by
  rw [List.getD_eq_getElem _ _ (by simpa using h), List.getD_eq_getElem _ _ h,
    List.getElem_map]

theorem remove_length (rb : RoaringBitmap) (v : Nat) :
    (rb.remove v).1.containers.length = rb.containers.length := by
  rcases hres : bsearchKey (calc_loc v).1 rb.containers with loc | loc
  · rw [(remove_found_destruct hres).1]
    simp
  · rw [remove_notFound_eq hres]

theorem insert_present_length (rb : RoaringBitmap) (v : Nat)
    (hs : SortedKeys rb.containers)
    (hmem : ∃ c ∈ rb.containers, c.key = (calc_loc v).1) :
    (rb.insert v).1.containers.length = rb.containers.length := by
  obtain ⟨c, hc, hkey⟩ := hmem
  rcases List.mem_iff_get.1 hc with ⟨j, rfl⟩
  have hj : (j : Nat) < rb.containers.length := j.isLt
  have hfound := bsearchKey_found_of_mem hs hj (k := (calc_loc v).1) (by
    rw [List.getD_eq_getElem _ _ hj]
    simpa [List.get_eq_getElem] using hkey)
  rw [(insert_found_destruct hfound).1]
  simp

theorem range_fold_isDense {n : Nat} (h : T < n) :
    ((List.range n).foldl (fun c i => (c.insert i).1) (Container.new 0)).isDense = true := by
  obtain ⟨hwf, hcard, _⟩ := range_fold_container n
  rw [isDense_eq_card hwf, hcard]
  simpa using h

/-! ## The claims -/

/-- C1, counterexample to the claim as stated: starting from the empty bitmap,
`insert(0)` then `insert(65536)` (container keys 0 and 1) leaves the container
sequence with keys `[1, 0]`, which is not strictly increasing by key. -/
theorem C1_counterexample :
    ¬ ((applyOps [.ins 0, .ins 65536] RoaringBitmap.new).containers.Pairwise
      (fun a b => a.key < b.key)) := by
  decide

/-- C1 (amended): starting from the empty bitmap produced by `new()`, after
every finite sequence of `insert` and `remove` calls, the container sequence
is strictly DECREASING by container key, and no two containers share a key. -/
theorem C1_store_ordering_descending (ops : List Op) :
    ((applyOps ops RoaringBitmap.new).containers.Pairwise (fun a b => b.key < a.key))
    ∧ ((applyOps ops RoaringBitmap.new).containers.map (fun c => c.key)).Nodup := by
  have hs := sorted_reachable ops
  refine ⟨hs, ?_⟩
  have h2 : ((applyOps ops RoaringBitmap.new).containers.map (fun c => c.key)).Pairwise
      (· ≠ ·) := by
    rw [List.pairwise_map]
    exact hs.imp fun hab => (Nat.ne_of_lt hab).symm
  exact h2

/-- C2, counterexample to the claim as stated: with the store holding only key
5 (after `insert(327680)`), inserting value 589824 (key 9) should — per the
claim — go to the first position whose existing key is greater than 9, i.e.
position 1, giving keys `[5, 9]`; the code instead places it at position 0,
giving keys `[9, 5]`. -/
theorem C2_counterexample :
    (applyOps [.ins 327680] RoaringBitmap.new).containers.map (fun c => c.key) = [5]
    ∧ (calc_loc 589824).1 = 9
    ∧ specInsertPos [5] 9 = 1
    ∧ ((applyOps [.ins 327680] RoaringBitmap.new).insert 589824).1.containers.map
        (fun c => c.key) = [9, 5]
    ∧ [9, 5] ≠ List.insertIdx 1 9 [5] := by
  decide

/-- C2 (amended): when no container with the value's key exists, `insert`
creates exactly one new empty container for that key and places it at the
binary-search miss position, which is the first position whose existing key is
LESS than the new key (the sequence being descending); the sequence grows by
exactly one, and no other operation — `remove` always, `insert` on a present
key — ever lengthens the sequence. -/
theorem C2_insert_position_descending (rb : RoaringBitmap) (v : Nat)
    (hs : SortedKeys rb.containers)
    (habs : ∀ c ∈ rb.containers, c.key ≠ (calc_loc v).1) :
    ((rb.insert v).1.containers.map (fun c => c.key)
      = (rb.containers.map (fun c => c.key)).insertIdx
          (descInsertPos (rb.containers.map (fun c => c.key)) (calc_loc v).1)
          (calc_loc v).1)
    ∧ (rb.insert v).1.containers.length = rb.containers.length + 1
    ∧ (∀ (rb2 : RoaringBitmap) (w : Nat),
        (rb2.remove w).1.containers.length = rb2.containers.length)
    ∧ (∀ (rb2 : RoaringBitmap) (w : Nat), SortedKeys rb2.containers →
        (∃ c ∈ rb2.containers, c.key = (calc_loc w).1) →
        (rb2.insert w).1.containers.length = rb2.containers.length) := by
  rcases hres : bsearchKey (calc_loc v).1 rb.containers with loc | loc
  · exact absurd hres (bsearchKey_ne_found_of_absent habs)
  · obtain ⟨hb, hleft, hright⟩ := bsearchKey_notFound hs hres
    obtain ⟨hcs, _⟩ := insert_notFound_destruct hres hb
    have hpos : descInsertPos (rb.containers.map (fun c => c.key)) (calc_loc v).1 = loc := by
      rw [descInsertPos]
      refine findIdx_eq_of_bounds _ loc (by simpa using hb) ?_ ?_
      · intro i hi hilen
        have hilen2 : i < rb.containers.length := by simpa using hilen
        rw [getD_map_key hilen2]
        have := hleft i hi hilen2
        simp only [decide_eq_false_iff_not]
        omega
      · intro hlen2
        have hlen3 : loc < rb.containers.length := by simpa using hlen2
        rw [getD_map_key hlen3]
        have := hright loc (le_refl loc) hlen3
        simp only [decide_eq_true_eq]
        omega
    refine ⟨?_, ?_, remove_length, fun rb2 w hs2 hmem => insert_present_length rb2 w hs2 hmem⟩
    · rw [hcs, hpos]
      rw [List.map_set, map_insertIdx _ loc _ _ hb]
      rw [Container.key_new, Container.key_insert, Container.key_new]
      have hlen4 : loc <
          ((rb.containers.map (fun c => c.key)).insertIdx loc (calc_loc v).1).length := by
        rw [List.length_insertIdx _ _ (by simpa using hb), List.length_map]
        omega
      have hgetD : ((rb.containers.map (fun c => c.key)).insertIdx loc
          (calc_loc v).1).getD loc 0 = (calc_loc v).1 := by
        rw [List.getD_eq_getElem _ _ hlen4,
          List.getElem_insertIdx_self _ _ _ (by simpa using hb)]
      nth_rewrite 2 [← hgetD]
      exact set_getD_self 0 _ loc hlen4
    · rw [hcs]
      rw [List.length_set, List.length_insertIdx _ _ hb]

/-- C2 witness: the main theorem applied at the empty bitmap and value 0. -/
theorem C2_witness :
    (RoaringBitmap.new.insert 0).1.containers.length
      = RoaringBitmap.new.containers.length + 1 :=
  (C2_insert_position_descending RoaringBitmap.new 0 sorted_new (by decide)).2.1

/-- C3: `calc_loc v = (v >> 16, v & 0xFFFF)` for every 32-bit value, the four
boundary values come out as stated, and recomposition `key * 65536 + index`
recovers `v`, so the split is lossless. -/
theorem C3_calc_loc_split (v : Nat) (hv : v < 4294967296) :
    calc_loc v = (v >>> 16, v &&& 65535)
    ∧ (calc_loc v).1 * 65536 + (calc_loc v).2 = v
    ∧ calc_loc 0 = (0, 0)
    ∧ calc_loc 65535 = (0, 65535)
    ∧ calc_loc 65536 = (1, 0)
    ∧ calc_loc 4294967295 = (65535, 65535) := by
  have h1 : v >>> 16 = v / 65536 := by
    rw [Nat.shiftRight_eq_div_pow]
  have h3 : v &&& 65535 = v % 65536 := by
    have h := Nat.and_pow_two_sub_one_eq_mod v 16
    norm_num at h
    exact h
  refine ⟨?_, ?_, by decide, by decide, by decide, by decide⟩
  · rw [calc_loc, h1, h3]
    have h2 : v / 65536 % 65536 = v / 65536 := by
      apply Nat.mod_eq_of_lt
      omega
    rw [h2]
  · rw [calc_loc]
    simp only [h1]
    omega

/-- C3 witness: the theorem applied at the concrete 32-bit value 65536. -/
theorem C3_witness :
    (calc_loc 65536).1 * 65536 + (calc_loc 65536).2 = 65536 :=
  (C3_calc_loc_split 65536 (by decide)).2.1

/-- C4: when no container with the value's key exists, `remove` returns
`false` and leaves the store entirely unchanged — it never creates a
container. -/
theorem C4_remove_absent_noop (rb : RoaringBitmap) (v : Nat)
    (habs : ∀ c ∈ rb.containers, c.key ≠ (calc_loc v).1) :
    rb.remove v = (rb, false) := by
  rcases hres : bsearchKey (calc_loc v).1 rb.containers with loc | loc
  · exact absurd hres (bsearchKey_ne_found_of_absent habs)
  · exact remove_notFound_eq hres

/-- C4 witness: the theorem applied at the empty bitmap and value 3. -/
theorem C4_witness : RoaringBitmap.new.remove 3 = (RoaringBitmap.new, false) :=
  C4_remove_absent_noop RoaringBitmap.new 3 (by decide)

/-- C5: on every reachable store state, inserting the same value twice makes
the second call return `false`, and the cardinality after the first call
equals the cardinality after the second. Reachable states are exactly those
produced by a finite operation sequence from `new()`. -/
theorem C5_insert_idempotent (ops : List Op) (v : Nat) :
    (((applyOps ops RoaringBitmap.new).insert v).1.insert v).2 = false
    ∧ ((applyOps ops RoaringBitmap.new).insert v).1.cardinality
      = (((applyOps ops RoaringBitmap.new).insert v).1.insert v).1.cardinality := by
  have h := insert_insert_eq (sorted_reachable ops) (v := v)
  rw [h]
  exact ⟨rfl, rfl⟩

/-- C6, counterexample to the claim as stated: at the completely full bitmap
— a well-formed store (keys strictly descending and distinct, every container
well-formed) holding all 2^32 values — the `u32` fold wraps: `cardinality()`
returns 0 while the sum of the containers' cardinalities is 2^32. -/
theorem C6_counterexample :
    fullStore.cardinality = 0
    ∧ (fullStore.containers.map (fun c => c.cardinality)).sum = 4294967296
    ∧ fullStore.cardinality ≠ (fullStore.containers.map (fun c => c.cardinality)).sum
    ∧ SortedKeys fullStore.containers
    ∧ (∀ c ∈ fullStore.containers, CWf c) := by
  have hsum : (fullStore.containers.map (fun c => c.cardinality)).sum = 4294967296 := by
    simp only [fullStore]
    rw [map_fullContainer_card, sum_replicate_card, List.length_reverse, List.length_range]
  have hcardeq := cardFold_eq_sum_mod fullStore.containers 0 (by norm_num)
  have hcard : fullStore.cardinality = 0 := by
    rw [RoaringBitmap.cardinality, hcardeq, hsum]
  refine ⟨hcard, hsum, by rw [hcard, hsum]; norm_num, ?_, ?_⟩
  · rw [SortedKeys]
    simp only [fullStore]
    rw [List.pairwise_map]
    have hrev : ((List.range 65536).reverse).Pairwise (fun a b => b < a) := by
      rw [List.pairwise_reverse]
      exact List.sorted_lt_range 65536
    exact hrev.imp fun hab => hab
  · intro c hc
    simp only [fullStore] at hc
    rcases List.mem_map.1 hc with ⟨k, _, rfl⟩
    refine CWf_mk_dense ?_ (by norm_num [T])
    rw [Finset.card_range]

/-- C6 (amended): `cardinality()` equals the sum, over every container, of
that container's `cardinality()`, reduced modulo 2^32 — the `u32` width of
the source's fold; in particular it equals the exact sum on every store whose
total is below 2^32. -/
theorem C6_cardinality_sum_mod (rb : RoaringBitmap) :
    rb.cardinality = (rb.containers.map (fun c => c.cardinality)).sum % 4294967296
    ∧ ((rb.containers.map (fun c => c.cardinality)).sum < 4294967296 →
        rb.cardinality = (rb.containers.map (fun c => c.cardinality)).sum) := by
  have h := cardFold_eq_sum_mod rb.containers 0 (by norm_num)
  rw [RoaringBitmap.cardinality]
  constructor
  · rw [h]
    omega
  · intro hlt
    rw [h]
    omega

/-- C6 witness: the amended theorem applied at the store holding the single
value 3, whose total is far below 2^32. -/
theorem C6_witness :
    (RoaringBitmap.new.insert 3).1.cardinality
      = ((RoaringBitmap.new.insert 3).1.containers.map (fun c => c.cardinality)).sum :=
  (C6_cardinality_sum_mod (RoaringBitmap.new.insert 3).1).2 (by decide)

/-- C7: `contains` is a pure query (it takes `&self` and is embedded as a
function returning only a `Bool`), and whenever no container with the value's
key exists it returns `false`. -/
theorem C7_contains_absent_false (rb : RoaringBitmap) (v : Nat)
    (habs : ∀ c ∈ rb.containers, c.key ≠ (calc_loc v).1) :
    rb.contains v = false := by
  rcases hres : bsearchKey (calc_loc v).1 rb.containers with loc | loc
  · exact absurd hres (bsearchKey_ne_found_of_absent habs)
  · simp only [RoaringBitmap.contains, hres]

/-- C7 witness: the theorem applied at the empty bitmap and value 5. -/
theorem C7_witness : RoaringBitmap.new.contains 5 = false :=
  C7_contains_absent_false RoaringBitmap.new 5 (by decide)

/-- C8: on every container reachable from a fresh container by a finite
sequence of inserts and removes, the representation is a pure function of the
current cardinality relative to the threshold `T = 4096` (dense exactly when
cardinality exceeds `T`); in particular, after inserting the 4097 distinct
indices 0..4096 into one container, its representation is dense. -/
theorem C8_representation_threshold :
    (∀ (ops : List COp) (k : Nat),
      (applyCOps ops (Container.new k)).isDense
        = decide (T < (applyCOps ops (Container.new k)).cardinality))
    ∧ ((List.range 4097).foldl (fun c i => (c.insert i).1) (Container.new 0)).isDense
        = true := by
  constructor
  · intro ops k
    exact isDense_eq_card (CWf_applyCOps ops (Container.new k) (CWf_new k))
  · exact range_fold_isDense (by decide)

/-- C9: the indexing operator dereferences to `true` exactly when `contains`
returns `true`; it is embedded as a pure function, so evaluating it does not
modify the bitmap. -/
theorem C9_index_contains (rb : RoaringBitmap) (v : Nat) :
    rb.index v = rb.contains v ∧ (rb.index v = true ↔ rb.contains v = true) := by
  have h : rb.index v = rb.contains v := by
    rw [RoaringBitmap.index]
    split <;> simp_all
  exact ⟨h, by rw [h]⟩

/-- C10: the code contradicts the claim — the `FromIterator` impl is
`unimplemented!()`, a panic on every input sequence, so no bitmap is ever
constructed, let alone one containing the sequence's values. -/
theorem C10_from_iter_unimplemented : ∀ l : List Nat, from_iter l = none :=
  fun _ => rfl

end Roaring
